import Mathlib

/-!
# Verification of `OpenAPIService` (src/swagger/OpenAPIService.ts)

A shallow embedding of the `OpenAPIService` class: a parsed OpenAPI v3
document is modelled as an explicit Lean structure, each method of the
class becomes a Lean function over it, and the unguarded recursion of
`getReferencesByObject` is made total with an explicit step budget
(`fuel`): `Except.error RFail.fuel` means the source recursion would not
have returned within that budget, so divergence of the source is the
statement that every budget is exhausted.
-/

namespace OpenAPI

/-- Schema shapes, as a tagged union.
Modelled from the spec: the type-classification collaborator
(`OpenAPITypesGuard`) and the `v3/*` typings are not under `src/`; §3 of
the spec describes a Schema Definition as a tagged union over Reference
(a `$ref` pointer string), Collection (an `items` schema), Object (a
property map), Composition (`allOf`, a list of references, per the
`IOpenAPI3Reference[]` typing used by the source), and primitive.
The guard methods `isReference` / `isCollection` / `isObject` / `isAllOf`
become constructor matches. -/
inductive Schema : Type where
  | ref (pointer : String)
  | coll (items : Schema)
  | obj (properties : List (String × Schema))
  | allOf (refs : List String)
  | prim

/-- One entry of a `content` map: `content[contentType].schema`. -/
structure MediaType where
  schema : Option Schema

/-- `operation.requestBody` : a content-type keyed map. -/
structure RequestBody where
  content : List (String × MediaType)

/-- One response object; its `content` map is optional
(`responses[200].content?.`). -/
structure Response3 where
  content : Option (List (String × MediaType))

/-- One parameter; the source probes `z.schema` with `isReference`. -/
structure Param where
  schema : Option Schema

/-- An operation: tags, parameters, request body, and a map from HTTP
status code to response. JavaScript object keys are strings, but the
source indexes `responses[200]`, so the key is kept numeric. -/
structure Operation where
  tags : Option (List String)
  parameters : Option (List Param)
  requestBody : Option RequestBody
  responses : List (Nat × Response3)

/-- One path item: at most one operation per HTTP method (only the four
methods the source consults are modelled). -/
structure PathItem where
  get : Option Operation
  post : Option Operation
  put : Option Operation
  delete : Option Operation

/-- The parsed specification document (`this.spec`). `paths` is an
insertion-ordered key/value list, as `Object.entries` iterates it;
`schemas` is `components.schemas`. -/
structure Doc where
  openapi : Option String
  paths : Option (List (String × PathItem))
  schemas : List (String × Schema)

/-! ## String helpers

JavaScript's `String.prototype.split` with a one-character separator and
`String.prototype.endsWith`, modelled over the character list of a Lean
string. The source only splits on `'.'` and `'/'`. -/

/-- `s.split(c)` for a single-character separator. -/
def splitOnCharAux (c : Char) : List Char → List Char → List (List Char)
  | [], acc => [acc.reverse]
  | x :: rest, acc =>
    if x = c then acc.reverse :: splitOnCharAux c rest []
    else splitOnCharAux c rest (x :: acc)

/-- `s.split(c)`: split `s` at every occurrence of `c`. -/
def splitOnChar (c : Char) (s : String) : List String :=
  (splitOnCharAux c s.data []).map (fun l => String.mk l)

/-- `key.endsWith(e)`: `e` is a suffix of `key`. -/
def strEndsWith (key e : String) : Bool :=
  e.data.isSuffixOf key.data

/-- Modelled from the spec: `first` from `src/utils` (not under `src/`)
returns the first element. Both call sites apply it to a non-empty
`split` result, so the default is never observed. -/
def first (l : List String) : String := l.headD ""

/-- Modelled from the spec: `last` from `src/utils` (not under `src/`)
returns the last element. The call site applies it to a non-empty
`split` result, so the default is never observed. -/
def last (l : List String) : String := l.getLastD ""

/-! ## Document Accessor -/

/-- `SUPPORTED_VERSION = 3`. -/
def SUPPORTED_VERSION : Nat := 3

/-- `private get majorVersion()`: `first(this.spec.openapi.split('.'))`,
or `undefined` when the `openapi` field is absent. -/
def majorVersion (doc : Doc) : Option String :=
  match doc.openapi with
  | none => none
  | some v => some (first (splitOnChar '.' v))

/-- The constructor's version check: throw unless
`majorVersion === SUPPORTED_VERSION.toString()`. On success the service
instance (here: the document itself) is available; on failure only the
error is. -/
def construct (doc : Doc) : Except String Doc :=
  if majorVersion doc = some (toString SUPPORTED_VERSION) then Except.ok doc
  else Except.error "Only OpenApi version 3 supported yet."

/-- `getEndpoints()`: `Object.keys(this.spec.paths).sort()`, `[]` when
`paths` is absent. JavaScript's default sort on path keys is ascending
lexicographic order. -/
def getEndpoints (doc : Doc) : List String :=
  match doc.paths with
  | none => []
  | some ps => List.insertionSort (· ≤ ·) (ps.map Prod.fst)

/-- `pathItem.get || pathItem.post || pathItem.put || pathItem.delete`:
the first present of the four methods. -/
def methodPriority (item : PathItem) : Option Operation :=
  match item.get with
  | some op => some op
  | none =>
    match item.post with
    | some op => some op
    | none =>
      match item.put with
      | some op => some op
      | none => item.delete

/-- `private getOperationByEndpoint(endpoint)`: the first entry of
`paths` whose key has `endpoint` as a suffix (`key.endsWith(endpoint)`),
then the method-priority pick on that path item. -/
def getOperationByEndpoint (doc : Doc) (endpoint : String) : Option Operation :=
  match doc.paths with
  | none => none
  | some ps =>
    match ps.find? (fun kv => strEndsWith kv.1 endpoint) with
    | none => none
    | some kv => methodPriority kv.2

/-- `getTagsByEndpoint(endpoint)`: `...?.tags ?? []`. -/
def getTagsByEndpoint (doc : Doc) (endpoint : String) : List String :=
  match getOperationByEndpoint doc endpoint with
  | none => []
  | some op => op.tags.getD []

/-- `getOperationsByEndpoints(endpoints)`: skip endpoints with no
resolvable operation, store `endpoint ↦ operation` for the rest. -/
def getOperationsByEndpoints (doc : Doc) (endpoints : List String) :
    List (String × Operation) :=
  if endpoints.isEmpty then []
  else
    endpoints.foldl
      (fun store e =>
        match getOperationByEndpoint doc e with
        | none => store
        | some op => store ++ [(e, op)])
      []

/-! ## Reference Resolver -/

/-- Failure modes of the resolver, which the source does not guard:
`fuel` stands for the stack exhaustion of the unguarded recursion
(the computation did not finish within the given step budget), and
`noResp200` for the `TypeError` raised by
`operation.responses[200].content` when status `200` is absent. -/
inductive RFail : Type where
  | fuel
  | noResp200

/-- `private getSchemaKey(reference)`:
`last(reference.$ref.split('/'))`. References are carried as their
`$ref` pointer strings. -/
def getSchemaKey (r : String) : String := last (splitOnChar '/' r)

/-- `this.spec.components.schemas[key]`: `none` models `undefined` for a
name absent from the components table. -/
def schemaLookup (doc : Doc) (key : String) : Option Schema :=
  (doc.schemas.find? (fun kv => kv.1 == key)).map Prod.snd

/-- `content['application/json']?.schema`. -/
def jsonOf (content : List (String × MediaType)) : Option Schema :=
  match content.find? (fun kv => kv.1 == "application/json") with
  | none => none
  | some kv => kv.2.schema

/-- `private getSchemaFromContent(refs, schema)`: push the `items`
reference of a collection, or the schema itself when it is a reference. -/
def getSchemaFromContent (refs : List String) : Option Schema → List String
  | some (Schema.coll (Schema.ref r)) => refs ++ [r]
  | some (Schema.ref r) => refs ++ [r]
  | _ => refs

/-- `private getReferencesByOperation(operation)`: parameters first,
then the request body's `application/json` schema, then the `200`
response's `application/json` schema. `operation.responses[200]` is
accessed unguarded, so a missing `200` entry raises. -/
def getReferencesByOperation (op : Operation) : Except RFail (List String) :=
  let paramRefs :=
    (op.parameters.getD []).foldl
      (fun acc p =>
        match p.schema with
        | some (Schema.ref r) => acc ++ [r]
        | _ => acc)
      []
  let withReq :=
    getSchemaFromContent paramRefs
      (op.requestBody.bind (fun rb => jsonOf rb.content))
  match op.responses.find? (fun kv => kv.1 == 200) with
  | none => Except.error RFail.noResp200
  | some kv =>
    Except.ok (getSchemaFromContent withReq (kv.2.content.bind jsonOf))

/-- The per-property classification inside `getReferencesByObject`:
a collection whose `items` is a reference contributes the items
reference, a reference contributes itself, an `allOf` contributes all
its elements, anything else contributes nothing. -/
def propRefs : Schema → List String
  | Schema.coll (Schema.ref r) => [r]
  | Schema.ref r => [r]
  | Schema.allOf rs => rs
  | _ => []

/-- All references contributed by the properties of an object schema, in
property order (`Object.values(object.properties)`). -/
def objPropRefs (props : List (String × Schema)) : List String :=
  (props.map Prod.snd).flatMap propRefs

/-- The recursion core of `private getReferencesByObject(object)`.

The source pushes each property reference `x` and, when `x` names an
object schema, immediately concatenates the recursive expansion of that
object before moving to the next reference, with no cycle guard. The
two nested source loops (over properties, then over that property's
references) are flattened into one worklist of references
(`objPropRefs`), which preserves the emission order
`x₁, expansion of x₁, x₂, expansion of x₂, …` exactly.

`fuel` is a step budget making the unguarded recursion total:
`Except.error RFail.fuel` means the source computation has not returned
after `fuel` steps. The source diverges on an input iff every budget is
exhausted, and returns `out` iff some budget yields `Except.ok out`. -/
def walkRefs (doc : Doc) : Nat → List String → Except RFail (List String)
  | 0, _ => Except.error RFail.fuel
  | _ + 1, [] => Except.ok []
  | f + 1, x :: rest =>
    match schemaLookup doc (getSchemaKey x) with
    | some (Schema.obj ps) =>
      match walkRefs doc f (objPropRefs ps) with
      | Except.error e => Except.error e
      | Except.ok sub =>
        match walkRefs doc f rest with
        | Except.error e => Except.error e
        | Except.ok tail => Except.ok (x :: (sub ++ tail))
    | _ =>
      match walkRefs doc f rest with
      | Except.error e => Except.error e
      | Except.ok tail => Except.ok (x :: tail)

/-- `private getReferencesByObject(object)` on an object schema with
properties `props`, with step budget `f`. -/
def getReferencesByObject (doc : Doc) (f : Nat) (props : List (String × Schema)) :
    Except RFail (List String) :=
  walkRefs doc f (objPropRefs props)

/-- Insertion-order deduplication, as a JavaScript `Set` iterates in
insertion order of first occurrence. -/
def dedupGo (seen : List String) : List String → List String
  | [] => []
  | x :: rest =>
    if seen.contains x then dedupGo seen rest
    else x :: dedupGo (seen ++ [x]) rest

/-- `[...new Set(l)]`: first occurrences, in order. -/
def dedup (l : List String) : List String := dedupGo [] l

/-- The `keysFromObjects` loop of `private getSchemas(refs)`: for every
key whose schema is an object, collect the keys of its recursive
reference expansion. -/
def keysFromObjects (doc : Doc) (f : Nat) : List String → Except RFail (List String)
  | [] => Except.ok []
  | z :: rest =>
    match schemaLookup doc z with
    | some (Schema.obj ps) =>
      match getReferencesByObject doc f ps with
      | Except.error e => Except.error e
      | Except.ok xs =>
        match keysFromObjects doc f rest with
        | Except.error e => Except.error e
        | Except.ok tail => Except.ok (xs.map getSchemaKey ++ tail)
    | _ => keysFromObjects doc f rest

/-- `private getSchemas(refs)`: dedupe the direct keys, run the object
expansion over them, union, and map every resulting key to its
components-table entry (`undefined`, i.e. `none`, when absent). -/
def getSchemas (doc : Doc) (f : Nat) (refs : List String) :
    Except RFail (List (String × Option Schema)) :=
  let keys := dedup (refs.map getSchemaKey)
  match keysFromObjects doc f keys with
  | Except.error e => Except.error e
  | Except.ok kfo =>
    Except.ok ((dedup (keys ++ kfo)).map (fun k => (k, schemaLookup doc k)))

/-- `store[key] = value` on a string-keyed JavaScript object: overwrite
in place when the key exists, append otherwise. -/
def upsert (store : List (String × Option Schema)) (kv : String × Option Schema) :
    List (String × Option Schema) :=
  if store.any (fun e => e.1 == kv.1) then
    store.map (fun e => if e.1 == kv.1 then (e.1, kv.2) else e)
  else store ++ [kv]

/-- `{ ...store, ...adds }` on string-keyed objects. -/
def mergeStore (store adds : List (String × Option Schema)) :
    List (String × Option Schema) :=
  adds.foldl upsert store

/-- The `reduce` body of `getSchemasByEndpoints`: resolve each endpoint,
silently skip unresolvable ones, and spread each operation's schema
closure into the store. -/
def getSchemasByEndpointsGo (doc : Doc) (f : Nat) :
    List String → List (String × Option Schema) →
    Except RFail (List (String × Option Schema))
  | [], store => Except.ok store
  | e :: rest, store =>
    match getOperationByEndpoint doc e with
    | none => getSchemasByEndpointsGo doc f rest store
    | some op =>
      match getReferencesByOperation op with
      | Except.error err => Except.error err
      | Except.ok refs =>
        match getSchemas doc f refs with
        | Except.error err => Except.error err
        | Except.ok m => getSchemasByEndpointsGo doc f rest (mergeStore store m)

/-- `getSchemasByEndpoints(endpoints)`: `{}` on an empty input set, else
the reduce above starting from `{}`. -/
def getSchemasByEndpoints (doc : Doc) (f : Nat) (endpoints : List String) :
    Except RFail (List (String × Option Schema)) :=
  if endpoints.isEmpty then Except.ok []
  else getSchemasByEndpointsGo doc f endpoints []

/-- `store[k]`: `some v` when key `k` is present with value `v`
(`v = none` models a present key holding `undefined`). -/
def storeLookup (store : List (String × Option Schema)) (k : String) :
    Option (Option Schema) :=
  (store.find? (fun e => e.1 == k)).map Prod.snd

/-! ## Specification-side single-pass closure

Modelled from the spec (§4.2, §9): the single-pass full transitive
closure with a "visited schema names" guard set that the spec declares
behaviourally equivalent to the source's assembly on acyclic documents. -/

/-- The names one property-scan step discovers from schema name `k`:
the keys of the property references when `k` names an object schema,
nothing otherwise. -/
def stepNames (doc : Doc) (k : String) : List String :=
  match schemaLookup doc k with
  | some (Schema.obj ps) => (objPropRefs ps).map getSchemaKey
  | _ => []

theorem contains_iff_mem (l : List String) (a : String) :
    l.contains a = true ↔ a ∈ l := by
  simp [List.contains]

theorem length_filter_le_of_imp (l : List String) (p q : String → Bool)
    (h : ∀ a, q a = true → p a = true) :
    (l.filter q).length ≤ (l.filter p).length := by
  induction l with
  | nil => simp
  | cons x rest ih =>
    rw [List.filter_cons, List.filter_cons]
    by_cases hq : q x = true
    · rw [if_pos hq, if_pos (h x hq)]
      simpa using ih
    · rw [if_neg (by simp [hq])]
      by_cases hp : p x = true
      · rw [if_pos hp]
        simp only [List.length_cons]
        exact Nat.le_succ_of_le ih
      · rw [if_neg (by simp [hp])]
        exact ih

theorem length_filter_lt_of_imp (l : List String) (p q : String → Bool)
    (h : ∀ a, q a = true → p a = true) (a : String) (ha : a ∈ l)
    (hpa : p a = true) (hqa : q a = false) :
    (l.filter q).length < (l.filter p).length := by
  induction l with
  | nil => simp at ha
  | cons x rest ih =>
    rcases List.mem_cons.mp ha with hx | hx
    · rw [hx] at hpa hqa
      rw [List.filter_cons, List.filter_cons, if_pos hpa,
        if_neg (by simp [hqa])]
      have := length_filter_le_of_imp rest p q h
      simp only [List.length_cons]
      omega
    · rw [List.filter_cons, List.filter_cons]
      by_cases hq : q x = true
      · rw [if_pos hq, if_pos (h x hq)]
        simp only [List.length_cons]
        exact Nat.succ_lt_succ (ih hx)
      · rw [if_neg (by simp [hq])]
        by_cases hp : p x = true
        · rw [if_pos hp]
          simp only [List.length_cons]
          exact Nat.lt_succ_of_lt (ih hx)
        · rw [if_neg (by simp [hp])]
          exact ih hx

theorem stepNames_eq_nil_of_not_mem (doc : Doc) (k : String)
    (h : ¬ k ∈ doc.schemas.map Prod.fst) : stepNames doc k = [] := by
  have hlk : schemaLookup doc k = none := by
    unfold schemaLookup
    rw [List.find?_eq_none.mpr]
    · rfl
    · intro kv hkv hbeq
      exact h (List.mem_map.mpr ⟨kv, hkv, by
        have := beq_iff_eq.mp hbeq
        exact this⟩)
  unfold stepNames
  rw [hlk]

/-- Modelled from the spec: worklist closure with a visited set. A
visited name is never expanded again, so the recursion terminates on
every document, cyclic ones included. -/
def closureGo (doc : Doc) (visited : List String) : List String → List String
  | [] => visited
  | k :: rest =>
    if visited.contains k then closureGo doc visited rest
    else closureGo doc (visited ++ [k]) (rest ++ stepNames doc k)
termination_by wl =>
  (((doc.schemas.map Prod.fst).filter (fun t => !visited.contains t)).length,
    wl.length)
decreasing_by
  · exact Prod.Lex.right _ (Nat.lt_succ_self _)
  · rename_i hk
    have himp : ∀ a, (!(visited ++ [x]).contains a) = true →
        (!visited.contains a) = true := by
      intro a hq
      simp only [Bool.not_eq_true'] at hq ⊢
      rcases hcon : visited.contains a with _ | _
      · rfl
      · have : (visited ++ [x]).contains a = true :=
          (contains_iff_mem _ _).mpr
            (List.mem_append.mpr (Or.inl ((contains_iff_mem _ _).mp hcon)))
        rw [this] at hq
        exact hq
    by_cases hmem : x ∈ doc.schemas.map Prod.fst
    · apply Prod.Lex.left
      apply length_filter_lt_of_imp _ _ _ himp x hmem
      · simp only [Bool.not_eq_true']
        rcases hcon : visited.contains x with _ | _
        · rfl
        · exact absurd hcon hk
      · have hcx : (visited ++ [x]).contains x = true :=
          (contains_iff_mem _ _).mpr
            (List.mem_append.mpr (Or.inr (List.mem_singleton.mpr rfl)))
        simp [hcx]
    · rw [stepNames_eq_nil_of_not_mem doc x hmem, List.append_nil]
      rcases Nat.lt_or_ge
        (((doc.schemas.map Prod.fst).filter
          (fun t => !(visited ++ [x]).contains t)).length)
        (((doc.schemas.map Prod.fst).filter
          (fun t => !visited.contains t)).length) with hlt | hge
      · exact Prod.Lex.left _ _ hlt
      · have hle := length_filter_le_of_imp (doc.schemas.map Prod.fst)
          (fun t => !visited.contains t) (fun t => !(visited ++ [x]).contains t)
          himp
        have heq : ((doc.schemas.map Prod.fst).filter
            (fun t => !(visited ++ [x]).contains t)).length =
            ((doc.schemas.map Prod.fst).filter
              (fun t => !visited.contains t)).length :=
          Nat.le_antisymm hle hge
        rw [heq]
        exact Prod.Lex.right _ (Nat.lt_succ_self _)

/-- Modelled from the spec: the closure's name set, rooted at the keys
of the direct references. -/
def specClosure (doc : Doc) (refs : List String) : List String :=
  closureGo doc [] (refs.map getSchemaKey)

/-- Modelled from the spec: the single-pass closure's output mapping,
every closure name mapped to its components-table entry. -/
def specGetSchemas (doc : Doc) (refs : List String) :
    List (String × Option Schema) :=
  (specClosure doc refs).map (fun k => (k, schemaLookup doc k))

/-- Reachability between schema names through property-scan steps. -/
inductive Reach (doc : Doc) : String → String → Prop where
  | refl (a : String) : Reach doc a a
  | tail {a b c : String} : Reach doc a b → c ∈ stepNames doc b → Reach doc a c

/-! ## Basic lemmas -/

theorem mem_dedupGo (l : List String) (seen : List String) (x : String) :
    x ∈ dedupGo seen l ↔ x ∈ l ∧ x ∉ seen := by
  induction l generalizing seen with
  | nil => simp [dedupGo]
  | cons y rest ih =>
    unfold dedupGo
    by_cases hy : seen.contains y = true
    · rw [if_pos hy, ih]
      have hys : y ∈ seen := (contains_iff_mem _ _).mp hy
      constructor
      · rintro ⟨hr, hs⟩
        exact ⟨List.mem_cons_of_mem _ hr, hs⟩
      · rintro ⟨hm, hs⟩
        rcases List.mem_cons.mp hm with rfl | hr
        · exact absurd hys hs
        · exact ⟨hr, hs⟩
    · rw [if_neg hy]
      have hys : y ∉ seen := fun h => hy ((contains_iff_mem _ _).mpr h)
      constructor
      · intro hm
        rcases List.mem_cons.mp hm with rfl | hr
        · exact ⟨List.mem_cons_self _ _, hys⟩
        · rcases (ih _).mp hr with ⟨h1, h2⟩
          exact ⟨List.mem_cons_of_mem _ h1,
            fun hs => h2 (List.mem_append.mpr (Or.inl hs))⟩
      · rintro ⟨hm, hs⟩
        rcases List.mem_cons.mp hm with rfl | hr
        · exact List.mem_cons_self _ _
        · by_cases hxy : x = y
          · rw [hxy]
            exact List.mem_cons_self _ _
          · refine List.mem_cons_of_mem _ ((ih _).mpr ⟨hr, fun hs' => ?_⟩)
            rcases List.mem_append.mp hs' with h | h
            · exact hs h
            · exact hxy (List.mem_singleton.mp h)

theorem mem_dedup (l : List String) (x : String) : x ∈ dedup l ↔ x ∈ l := by
  unfold dedup
  rw [mem_dedupGo]
  simp

theorem nodup_dedupGo (l : List String) (seen : List String) :
    (dedupGo seen l).Nodup := by
  induction l generalizing seen with
  | nil => simp [dedupGo]
  | cons y rest ih =>
    unfold dedupGo
    by_cases hy : seen.contains y = true
    · rw [if_pos hy]
      exact ih _
    · rw [if_neg hy]
      refine List.Nodup.cons (fun hmem => ?_) (ih _)
      rcases (mem_dedupGo _ _ _).mp hmem with ⟨_, hns⟩
      exact hns (List.mem_append.mpr (Or.inr (List.mem_singleton.mpr rfl)))

theorem nodup_dedup (l : List String) : (dedup l).Nodup := nodup_dedupGo l []

theorem storeLookup_map (names : List String) (g : String → Option Schema)
    (k : String) :
    storeLookup (names.map (fun n => (n, g n))) k =
      if k ∈ names then some (g k) else none := by
  induction names with
  | nil => simp [storeLookup]
  | cons n rest ih =>
    unfold storeLookup at ih ⊢
    by_cases hk : n = k
    · rw [hk]
      simp [List.find?]
    · simp only [List.map_cons, List.find?]
      have hbeq : (n == k) = false := by
        simp [hk]
      simp only [hbeq]
      rw [ih]
      by_cases hm : k ∈ rest
      · rw [if_pos hm, if_pos (List.mem_cons_of_mem _ hm)]
      · rw [if_neg hm, if_neg (fun hc => by
          rcases List.mem_cons.mp hc with h | h
          · exact hk h.symm
          · exact hm h)]

theorem foldl_upsert_append (m acc : List (String × Option Schema))
    (hdisj : ∀ e ∈ m, ∀ a ∈ acc, ¬ e.1 = a.1)
    (hnd : (m.map Prod.fst).Nodup) :
    m.foldl upsert acc = acc ++ m := by
  induction m generalizing acc with
  | nil => simp
  | cons kv rest ih =>
    simp only [List.foldl_cons]
    have hany : acc.any (fun e => e.1 == kv.1) = false := by
      rw [List.any_eq_false]
      intro a ha
      simp only [beq_iff_eq]
      intro hc
      exact hdisj kv (List.mem_cons_self _ _) a ha hc.symm
    have hup : upsert acc kv = acc ++ [kv] := by
      unfold upsert
      rw [hany]
      simp
    have hnd' : kv.1 ∉ rest.map Prod.fst ∧ (rest.map Prod.fst).Nodup := by
      rw [List.map_cons] at hnd
      exact List.nodup_cons.mp hnd
    rw [hup, ih (acc ++ [kv])]
    · simp
    · intro e he a ha
      rcases List.mem_append.mp ha with h | h
      · exact hdisj e (List.mem_cons_of_mem _ he) a h
      · rw [List.mem_singleton.mp h]
        intro hc
        exact hnd'.1 (hc ▸ List.mem_map_of_mem Prod.fst he)
    · exact hnd'.2

theorem mergeStore_nil (m : List (String × Option Schema))
    (hnd : (m.map Prod.fst).Nodup) : mergeStore [] m = m := by
  unfold mergeStore
  rw [foldl_upsert_append m [] (by intro e _ a ha; simp at ha) hnd]
  simp

/-! ## Reachability lemmas -/

theorem Reach.trans {doc : Doc} {a b c : String}
    (hab : Reach doc a b) (hbc : Reach doc b c) : Reach doc a c := by
  induction hbc with
  | refl => exact hab
  | tail _ hstep ih => exact Reach.tail ih hstep

theorem Reach.single {doc : Doc} {a c : String}
    (h : c ∈ stepNames doc a) : Reach doc a c :=
  Reach.tail (Reach.refl a) h

theorem Reach.head_cases {doc : Doc} {a c : String} (h : Reach doc a c) :
    a = c ∨ ∃ b, b ∈ stepNames doc a ∧ Reach doc b c := by
  induction h with
  | refl => exact Or.inl rfl
  | tail _ hstep ih =>
    rcases ih with rfl | ⟨d, hd, hdb⟩
    · exact Or.inr ⟨_, hstep, Reach.refl _⟩
    · exact Or.inr ⟨d, hd, Reach.tail hdb hstep⟩

/-! ## `walkRefs` lemmas -/

/-- Inversion of one successful step of the walk. -/
theorem walkRefs_cons_ok (doc : Doc) (f : Nat) (x : String)
    (rest out : List String)
    (h : walkRefs doc (f + 1) (x :: rest) = Except.ok out) :
    (∃ ps sub tail, schemaLookup doc (getSchemaKey x) = some (Schema.obj ps) ∧
      walkRefs doc f (objPropRefs ps) = Except.ok sub ∧
      walkRefs doc f rest = Except.ok tail ∧
      out = x :: (sub ++ tail)) ∨
    ((∀ ps, schemaLookup doc (getSchemaKey x) ≠ some (Schema.obj ps)) ∧
      stepNames doc (getSchemaKey x) = [] ∧
      ∃ tail, walkRefs doc f rest = Except.ok tail ∧ out = x :: tail) := by
  cases hlk : schemaLookup doc (getSchemaKey x) with
  | some s =>
    cases s with
    | obj ps =>
      left
      simp only [walkRefs, hlk] at h
      cases hsub : walkRefs doc f (objPropRefs ps) with
      | error e => rw [hsub] at h; exact absurd h (by simp)
      | ok sub =>
        rw [hsub] at h
        cases htail : walkRefs doc f rest with
        | error e => rw [htail] at h; exact absurd h (by simp)
        | ok tail =>
          rw [htail] at h
          simp only [Except.ok.injEq] at h
          exact ⟨ps, sub, tail, rfl, hsub, rfl, h.symm⟩
    | ref r =>
      right
      simp only [walkRefs, hlk] at h
      refine ⟨by simp [hlk], by simp [stepNames, hlk], ?_⟩
      cases htail : walkRefs doc f rest with
      | error e => rw [htail] at h; exact absurd h (by simp)
      | ok tail =>
        rw [htail] at h
        simp only [Except.ok.injEq] at h
        exact ⟨tail, rfl, h.symm⟩
    | coll items =>
      right
      simp only [walkRefs, hlk] at h
      refine ⟨by simp [hlk], by simp [stepNames, hlk], ?_⟩
      cases htail : walkRefs doc f rest with
      | error e => rw [htail] at h; exact absurd h (by simp)
      | ok tail =>
        rw [htail] at h
        simp only [Except.ok.injEq] at h
        exact ⟨tail, rfl, h.symm⟩
    | allOf rs =>
      right
      simp only [walkRefs, hlk] at h
      refine ⟨by simp [hlk], by simp [stepNames, hlk], ?_⟩
      cases htail : walkRefs doc f rest with
      | error e => rw [htail] at h; exact absurd h (by simp)
      | ok tail =>
        rw [htail] at h
        simp only [Except.ok.injEq] at h
        exact ⟨tail, rfl, h.symm⟩
    | prim =>
      right
      simp only [walkRefs, hlk] at h
      refine ⟨by simp [hlk], by simp [stepNames, hlk], ?_⟩
      cases htail : walkRefs doc f rest with
      | error e => rw [htail] at h; exact absurd h (by simp)
      | ok tail =>
        rw [htail] at h
        simp only [Except.ok.injEq] at h
        exact ⟨tail, rfl, h.symm⟩
  | none =>
    right
    simp only [walkRefs, hlk] at h
    refine ⟨by simp [hlk], by simp [stepNames, hlk], ?_⟩
    cases htail : walkRefs doc f rest with
    | error e => rw [htail] at h; exact absurd h (by simp)
    | ok tail =>
      rw [htail] at h
      simp only [Except.ok.injEq] at h
      exact ⟨tail, rfl, h.symm⟩

/-- Every reference handed to the walk appears in its output. -/
theorem walkRefs_mem (doc : Doc) (f : Nat) :
    ∀ l out, walkRefs doc f l = Except.ok out → ∀ x ∈ l, x ∈ out := by
  induction f with
  | zero =>
    intro l out h
    simp [walkRefs] at h
  | succ f ih =>
    intro l out h x hx
    cases l with
    | nil => simp at hx
    | cons y rest =>
      rcases walkRefs_cons_ok doc f y rest out h with
        ⟨ps, sub, tail, _, _, htail, hout⟩ | ⟨_, _, tail, htail, hout⟩
      · rw [hout]
        rcases List.mem_cons.mp hx with rfl | hr
        · exact List.mem_cons_self _ _
        · exact List.mem_cons_of_mem _
            (List.mem_append.mpr (Or.inr (ih rest tail htail x hr)))
      · rw [hout]
        rcases List.mem_cons.mp hx with rfl | hr
        · exact List.mem_cons_self _ _
        · exact List.mem_cons_of_mem _ (ih rest tail htail x hr)

/-- The walk's output is closed under one property-scan step: whatever a
collected reference's object schema contributes is also collected. -/
theorem walkRefs_closed (doc : Doc) (f : Nat) :
    ∀ l out, walkRefs doc f l = Except.ok out →
      ∀ r ∈ out, ∀ c ∈ stepNames doc (getSchemaKey r),
        ∃ q ∈ out, getSchemaKey q = c := by
  induction f with
  | zero =>
    intro l out h
    simp [walkRefs] at h
  | succ f ih =>
    intro l out h r hr c hc
    cases l with
    | nil =>
      simp only [walkRefs, Except.ok.injEq] at h
      rw [← h] at hr
      simp at hr
    | cons y rest =>
      rcases walkRefs_cons_ok doc f y rest out h with
        ⟨ps, sub, tail, hlk, hsub, htail, hout⟩ | ⟨_, hstep, tail, htail, hout⟩
      · rw [hout] at hr ⊢
        rcases List.mem_cons.mp hr with rfl | hrm
        · rw [stepNames, hlk] at hc
          rcases List.mem_map.mp hc with ⟨q, hq, hkey⟩
          exact ⟨q, List.mem_cons_of_mem _
            (List.mem_append.mpr (Or.inl (walkRefs_mem doc f _ sub hsub q hq))),
            hkey⟩
        · rcases List.mem_append.mp hrm with hm | hm
          · rcases ih _ sub hsub r hm c hc with ⟨q, hq, hkey⟩
            exact ⟨q, List.mem_cons_of_mem _ (List.mem_append.mpr (Or.inl hq)),
              hkey⟩
          · rcases ih rest tail htail r hm c hc with ⟨q, hq, hkey⟩
            exact ⟨q, List.mem_cons_of_mem _ (List.mem_append.mpr (Or.inr hq)),
              hkey⟩
      · rw [hout] at hr ⊢
        rcases List.mem_cons.mp hr with rfl | hrm
        · rw [hstep] at hc
          simp at hc
        · rcases ih rest tail htail r hrm c hc with ⟨q, hq, hkey⟩
          exact ⟨q, List.mem_cons_of_mem _ hq, hkey⟩

/-- Everything the walk collects is reachable from some input reference. -/
theorem walkRefs_sound (doc : Doc) (f : Nat) :
    ∀ l out, walkRefs doc f l = Except.ok out →
      ∀ r ∈ out, ∃ x ∈ l, Reach doc (getSchemaKey x) (getSchemaKey r) := by
  induction f with
  | zero =>
    intro l out h
    simp [walkRefs] at h
  | succ f ih =>
    intro l out h r hr
    cases l with
    | nil =>
      simp only [walkRefs, Except.ok.injEq] at h
      rw [← h] at hr
      simp at hr
    | cons y rest =>
      rcases walkRefs_cons_ok doc f y rest out h with
        ⟨ps, sub, tail, hlk, hsub, htail, hout⟩ | ⟨_, _, tail, htail, hout⟩
      · rw [hout] at hr
        rcases List.mem_cons.mp hr with rfl | hrm
        · exact ⟨r, List.mem_cons_self _ _, Reach.refl _⟩
        · rcases List.mem_append.mp hrm with hm | hm
          · rcases ih _ sub hsub r hm with ⟨x, hx, hreach⟩
            refine ⟨y, List.mem_cons_self _ _, Reach.trans ?_ hreach⟩
            apply Reach.single
            rw [stepNames, hlk]
            exact List.mem_map_of_mem _ hx
          · rcases ih rest tail htail r hm with ⟨x, hx, hreach⟩
            exact ⟨x, List.mem_cons_of_mem _ hx, hreach⟩
      · rw [hout] at hr
        rcases List.mem_cons.mp hr with rfl | hrm
        · exact ⟨r, List.mem_cons_self _ _, Reach.refl _⟩
        · rcases ih rest tail htail r hrm with ⟨x, hx, hreach⟩
          exact ⟨x, List.mem_cons_of_mem _ hx, hreach⟩

/-- Everything reachable from an input reference is collected. -/
theorem walkRefs_complete (doc : Doc) (f : Nat) (l out : List String)
    (h : walkRefs doc f l = Except.ok out) (x : String) (hx : x ∈ l)
    (y : String) (hreach : Reach doc (getSchemaKey x) y) :
    ∃ q ∈ out, getSchemaKey q = y := by
  induction hreach with
  | refl => exact ⟨x, walkRefs_mem doc f l out h x hx, rfl⟩
  | tail _ hstep ih =>
    rcases ih with ⟨q, hq, hkey⟩
    rw [← hkey] at hstep
    exact walkRefs_closed doc f l out h q hq _ hstep

/-- Errors of the walk are always fuel exhaustion, never the missing-200
failure. -/
theorem walkRefs_error_fuel (doc : Doc) (f : Nat) :
    ∀ l e, walkRefs doc f l = Except.error e → e = RFail.fuel := by
  induction f with
  | zero =>
    intro l e h
    simp only [walkRefs, Except.error.injEq] at h
    exact h.symm
  | succ f ih =>
    intro l e h
    cases l with
    | nil => simp [walkRefs] at h
    | cons y rest =>
      cases hlk : schemaLookup doc (getSchemaKey y) with
      | some s =>
        cases s with
        | obj ps =>
          simp only [walkRefs, hlk] at h
          cases hsub : walkRefs doc f (objPropRefs ps) with
          | error e' =>
            rw [hsub] at h
            simp only [Except.error.injEq] at h
            rw [← h]
            exact ih _ e' hsub
          | ok sub =>
            rw [hsub] at h
            cases htail : walkRefs doc f rest with
            | error e' =>
              rw [htail] at h
              simp only [Except.error.injEq] at h
              rw [← h]
              exact ih rest e' htail
            | ok tail => rw [htail] at h; exact absurd h (by simp)
        | ref r =>
          simp only [walkRefs, hlk] at h
          cases htail : walkRefs doc f rest with
          | error e' =>
            rw [htail] at h
            simp only [Except.error.injEq] at h
            rw [← h]
            exact ih rest e' htail
          | ok tail => rw [htail] at h; exact absurd h (by simp)
        | coll items =>
          simp only [walkRefs, hlk] at h
          cases htail : walkRefs doc f rest with
          | error e' =>
            rw [htail] at h
            simp only [Except.error.injEq] at h
            rw [← h]
            exact ih rest e' htail
          | ok tail => rw [htail] at h; exact absurd h (by simp)
        | allOf rs =>
          simp only [walkRefs, hlk] at h
          cases htail : walkRefs doc f rest with
          | error e' =>
            rw [htail] at h
            simp only [Except.error.injEq] at h
            rw [← h]
            exact ih rest e' htail
          | ok tail => rw [htail] at h; exact absurd h (by simp)
        | prim =>
          simp only [walkRefs, hlk] at h
          cases htail : walkRefs doc f rest with
          | error e' =>
            rw [htail] at h
            simp only [Except.error.injEq] at h
            rw [← h]
            exact ih rest e' htail
          | ok tail => rw [htail] at h; exact absurd h (by simp)
      | none =>
        simp only [walkRefs, hlk] at h
        cases htail : walkRefs doc f rest with
        | error e' =>
          rw [htail] at h
          simp only [Except.error.injEq] at h
          rw [← h]
          exact ih rest e' htail
        | ok tail => rw [htail] at h; exact absurd h (by simp)

/-- More fuel never changes a successful walk. -/
theorem walkRefs_mono (doc : Doc) :
    ∀ f g l out, f ≤ g → walkRefs doc f l = Except.ok out →
      walkRefs doc g l = Except.ok out := by
  intro f
  induction f with
  | zero =>
    intro g l out _ h
    simp [walkRefs] at h
  | succ f ih =>
    intro g l out hfg h
    cases g with
    | zero => exact absurd hfg (by omega)
    | succ g =>
      have hfg' : f ≤ g := by omega
      cases l with
      | nil =>
        simp only [walkRefs, Except.ok.injEq] at h ⊢
        exact h
      | cons y rest =>
        rcases walkRefs_cons_ok doc f y rest out h with
          ⟨ps, sub, tail, hlk, hsub, htail, hout⟩ | ⟨hnobj, _, tail, htail, hout⟩
        · simp only [walkRefs, hlk, ih g _ _ hfg' hsub, ih g _ _ hfg' htail,
            hout]
        · cases hlk : schemaLookup doc (getSchemaKey y) with
          | some s =>
            cases s with
            | obj ps => exact absurd hlk (hnobj ps)
            | ref r => simp only [walkRefs, hlk, ih g _ _ hfg' htail, hout]
            | coll items => simp only [walkRefs, hlk, ih g _ _ hfg' htail, hout]
            | allOf rs => simp only [walkRefs, hlk, ih g _ _ hfg' htail, hout]
            | prim => simp only [walkRefs, hlk, ih g _ _ hfg' htail, hout]
          | none => simp only [walkRefs, hlk, ih g _ _ hfg' htail, hout]

/-- On a document admitting a rank function that strictly decreases
along property-scan steps (an acyclicity certificate), some fuel makes
the walk succeed. -/
theorem walkRefs_enough (doc : Doc) (rank : String → Nat)
    (hrank : ∀ a b, b ∈ stepNames doc a → rank b < rank a) :
    ∀ N l, (∀ x ∈ l, rank (getSchemaKey x) < N) →
      ∃ f out, walkRefs doc f l = Except.ok out := by
  intro N
  induction N using Nat.strong_induction_on with
  | _ N ihN =>
    intro l
    induction l with
    | nil => exact fun _ => ⟨1, [], rfl⟩
    | cons x rest ihl =>
      intro hb
      obtain ⟨f₂, out₂, h₂⟩ := ihl (fun y hy => hb y (List.mem_cons_of_mem _ hy))
      cases hlk : schemaLookup doc (getSchemaKey x) with
      | none =>
        exact ⟨f₂ + 1, x :: out₂, by simp only [walkRefs, hlk, h₂]⟩
      | some s =>
        cases s with
        | obj ps =>
          have hxN : rank (getSchemaKey x) < N := hb x (List.mem_cons_self _ _)
          obtain ⟨f₁, out₁, h₁⟩ := ihN (rank (getSchemaKey x)) hxN (objPropRefs ps)
            (fun y hy => hrank _ _ (by
              rw [stepNames, hlk]
              exact List.mem_map_of_mem _ hy))
          refine ⟨max f₁ f₂ + 1, x :: (out₁ ++ out₂), ?_⟩
          have h₁' := walkRefs_mono doc f₁ (max f₁ f₂) _ _ (Nat.le_max_left _ _) h₁
          have h₂' := walkRefs_mono doc f₂ (max f₁ f₂) _ _ (Nat.le_max_right _ _) h₂
          simp only [walkRefs, hlk, h₁', h₂']
        | ref r => exact ⟨f₂ + 1, x :: out₂, by simp only [walkRefs, hlk, h₂]⟩
        | coll items => exact ⟨f₂ + 1, x :: out₂, by simp only [walkRefs, hlk, h₂]⟩
        | allOf rs => exact ⟨f₂ + 1, x :: out₂, by simp only [walkRefs, hlk, h₂]⟩
        | prim => exact ⟨f₂ + 1, x :: out₂, by simp only [walkRefs, hlk, h₂]⟩

/-! ## `keysFromObjects` lemmas -/

theorem keysFromObjects_error_fuel (doc : Doc) (f : Nat) :
    ∀ keys e, keysFromObjects doc f keys = Except.error e → e = RFail.fuel := by
  intro keys
  induction keys with
  | nil =>
    intro e h
    simp [keysFromObjects] at h
  | cons z rest ih =>
    intro e h
    cases hlk : schemaLookup doc z with
    | some s =>
      cases s with
      | obj ps =>
        simp only [keysFromObjects, hlk, getReferencesByObject] at h
        cases hw : walkRefs doc f (objPropRefs ps) with
        | error e' =>
          rw [hw] at h
          simp only [Except.error.injEq] at h
          rw [← h]
          exact walkRefs_error_fuel doc f _ e' hw
        | ok xs =>
          rw [hw] at h
          cases ht : keysFromObjects doc f rest with
          | error e' =>
            rw [ht] at h
            simp only [Except.error.injEq] at h
            rw [← h]
            exact ih e' ht
          | ok tail => rw [ht] at h; exact absurd h (by simp)
      | ref r => simp only [keysFromObjects, hlk] at h; exact ih e h
      | coll items => simp only [keysFromObjects, hlk] at h; exact ih e h
      | allOf rs => simp only [keysFromObjects, hlk] at h; exact ih e h
      | prim => simp only [keysFromObjects, hlk] at h; exact ih e h
    | none => simp only [keysFromObjects, hlk] at h; exact ih e h

theorem keysFromObjects_mono (doc : Doc) (f g : Nat) (hfg : f ≤ g) :
    ∀ keys out, keysFromObjects doc f keys = Except.ok out →
      keysFromObjects doc g keys = Except.ok out := by
  intro keys
  induction keys with
  | nil =>
    intro out h
    simpa [keysFromObjects] using h
  | cons z rest ih =>
    intro out h
    cases hlk : schemaLookup doc z with
    | some s =>
      cases s with
      | obj ps =>
        simp only [keysFromObjects, hlk, getReferencesByObject] at h ⊢
        cases hw : walkRefs doc f (objPropRefs ps) with
        | error e' => rw [hw] at h; exact absurd h (by simp)
        | ok xs =>
          rw [hw] at h
          rw [walkRefs_mono doc f g _ _ hfg hw]
          cases ht : keysFromObjects doc f rest with
          | error e' => rw [ht] at h; exact absurd h (by simp)
          | ok tail =>
            rw [ht] at h
            rw [ih tail ht]
            exact h
      | ref r => simp only [keysFromObjects, hlk] at h ⊢; exact ih out h
      | coll items => simp only [keysFromObjects, hlk] at h ⊢; exact ih out h
      | allOf rs => simp only [keysFromObjects, hlk] at h ⊢; exact ih out h
      | prim => simp only [keysFromObjects, hlk] at h ⊢; exact ih out h
    | none => simp only [keysFromObjects, hlk] at h ⊢; exact ih out h

theorem keysFromObjects_enough (doc : Doc) (rank : String → Nat)
    (hrank : ∀ a b, b ∈ stepNames doc a → rank b < rank a) :
    ∀ keys, ∃ f out, keysFromObjects doc f keys = Except.ok out := by
  intro keys
  induction keys with
  | nil => exact ⟨0, [], rfl⟩
  | cons z rest ih =>
    obtain ⟨f₂, out₂, h₂⟩ := ih
    cases hlk : schemaLookup doc z with
    | none => exact ⟨f₂, out₂, by simp only [keysFromObjects, hlk, h₂]⟩
    | some s =>
      cases s with
      | obj ps =>
        obtain ⟨f₁, out₁, h₁⟩ := walkRefs_enough doc rank hrank (rank z)
          (objPropRefs ps)
          (fun y hy => hrank z _ (by
            rw [stepNames, hlk]
            exact List.mem_map_of_mem _ hy))
        refine ⟨max f₁ f₂, out₁.map getSchemaKey ++ out₂, ?_⟩
        have h₁' := walkRefs_mono doc f₁ (max f₁ f₂) _ _ (Nat.le_max_left _ _) h₁
        have h₂' := keysFromObjects_mono doc f₂ (max f₁ f₂)
          (Nat.le_max_right _ _) rest out₂ h₂
        simp only [keysFromObjects, hlk, getReferencesByObject, h₁', h₂']
      | ref r => exact ⟨f₂, out₂, by simp only [keysFromObjects, hlk, h₂]⟩
      | coll items => exact ⟨f₂, out₂, by simp only [keysFromObjects, hlk, h₂]⟩
      | allOf rs => exact ⟨f₂, out₂, by simp only [keysFromObjects, hlk, h₂]⟩
      | prim => exact ⟨f₂, out₂, by simp only [keysFromObjects, hlk, h₂]⟩

theorem keysFromObjects_forward (doc : Doc) (f : Nat) :
    ∀ keys kfo, keysFromObjects doc f keys = Except.ok kfo →
      ∀ z ∈ keys, ∀ ps, schemaLookup doc z = some (Schema.obj ps) →
        ∃ out, walkRefs doc f (objPropRefs ps) = Except.ok out ∧
          ∀ r ∈ out, getSchemaKey r ∈ kfo := by
  intro keys
  induction keys with
  | nil =>
    intro kfo _ z hz
    simp at hz
  | cons z' rest ih =>
    intro kfo h z hz ps hps
    cases hlk : schemaLookup doc z' with
    | some s =>
      cases s with
      | obj ps' =>
        simp only [keysFromObjects, hlk, getReferencesByObject] at h
        cases hw : walkRefs doc f (objPropRefs ps') with
        | error e' => rw [hw] at h; exact absurd h (by simp)
        | ok xs =>
          rw [hw] at h
          cases ht : keysFromObjects doc f rest with
          | error e' => rw [ht] at h; exact absurd h (by simp)
          | ok tail =>
            rw [ht] at h
            simp only [Except.ok.injEq] at h
            rcases List.mem_cons.mp hz with rfl | hzr
            · have hpseq : ps = ps' := by
                rw [hps] at hlk
                injection hlk with h'
                injection h' with h''
              rw [hpseq]
              refine ⟨xs, hw, fun r hr => ?_⟩
              rw [← h]
              exact List.mem_append.mpr (Or.inl (List.mem_map_of_mem _ hr))
            · rcases ih tail ht z hzr ps hps with ⟨out, hout, hsub⟩
              refine ⟨out, hout, fun r hr => ?_⟩
              rw [← h]
              exact List.mem_append.mpr (Or.inr (hsub r hr))
      | ref r =>
        simp only [keysFromObjects, hlk] at h
        rcases List.mem_cons.mp hz with rfl | hzr
        · rw [hps] at hlk; exact absurd hlk (by simp)
        · exact ih kfo h z hzr ps hps
      | coll items =>
        simp only [keysFromObjects, hlk] at h
        rcases List.mem_cons.mp hz with rfl | hzr
        · rw [hps] at hlk; exact absurd hlk (by simp)
        · exact ih kfo h z hzr ps hps
      | allOf rs =>
        simp only [keysFromObjects, hlk] at h
        rcases List.mem_cons.mp hz with rfl | hzr
        · rw [hps] at hlk; exact absurd hlk (by simp)
        · exact ih kfo h z hzr ps hps
      | prim =>
        simp only [keysFromObjects, hlk] at h
        rcases List.mem_cons.mp hz with rfl | hzr
        · rw [hps] at hlk; exact absurd hlk (by simp)
        · exact ih kfo h z hzr ps hps
    | none =>
      simp only [keysFromObjects, hlk] at h
      rcases List.mem_cons.mp hz with rfl | hzr
      · rw [hps] at hlk; exact absurd hlk (by simp)
      · exact ih kfo h z hzr ps hps

theorem keysFromObjects_sound (doc : Doc) (f : Nat) :
    ∀ keys kfo, keysFromObjects doc f keys = Except.ok kfo →
      ∀ y ∈ kfo, ∃ z ∈ keys, ∃ ps out,
        schemaLookup doc z = some (Schema.obj ps) ∧
        walkRefs doc f (objPropRefs ps) = Except.ok out ∧
        ∃ r ∈ out, getSchemaKey r = y := by
  intro keys
  induction keys with
  | nil =>
    intro kfo h y hy
    simp only [keysFromObjects, Except.ok.injEq] at h
    rw [← h] at hy
    simp at hy
  | cons z' rest ih =>
    intro kfo h y hy
    cases hlk : schemaLookup doc z' with
    | some s =>
      cases s with
      | obj ps' =>
        simp only [keysFromObjects, hlk, getReferencesByObject] at h
        cases hw : walkRefs doc f (objPropRefs ps') with
        | error e' => rw [hw] at h; exact absurd h (by simp)
        | ok xs =>
          rw [hw] at h
          cases ht : keysFromObjects doc f rest with
          | error e' => rw [ht] at h; exact absurd h (by simp)
          | ok tail =>
            rw [ht] at h
            simp only [Except.ok.injEq] at h
            rw [← h] at hy
            rcases List.mem_append.mp hy with hm | hm
            · rcases List.mem_map.mp hm with ⟨r, hr, hkey⟩
              exact ⟨z', List.mem_cons_self _ _, ps', xs, hlk, hw, r, hr, hkey⟩
            · rcases ih tail ht y hm with ⟨z, hz, ps, out, h1, h2, h3⟩
              exact ⟨z, List.mem_cons_of_mem _ hz, ps, out, h1, h2, h3⟩
      | ref r =>
        simp only [keysFromObjects, hlk] at h
        rcases ih kfo h y hy with ⟨z, hz, rest'⟩
        exact ⟨z, List.mem_cons_of_mem _ hz, rest'⟩
      | coll items =>
        simp only [keysFromObjects, hlk] at h
        rcases ih kfo h y hy with ⟨z, hz, rest'⟩
        exact ⟨z, List.mem_cons_of_mem _ hz, rest'⟩
      | allOf rs =>
        simp only [keysFromObjects, hlk] at h
        rcases ih kfo h y hy with ⟨z, hz, rest'⟩
        exact ⟨z, List.mem_cons_of_mem _ hz, rest'⟩
      | prim =>
        simp only [keysFromObjects, hlk] at h
        rcases ih kfo h y hy with ⟨z, hz, rest'⟩
        exact ⟨z, List.mem_cons_of_mem _ hz, rest'⟩
    | none =>
      simp only [keysFromObjects, hlk] at h
      rcases ih kfo h y hy with ⟨z, hz, rest'⟩
      exact ⟨z, List.mem_cons_of_mem _ hz, rest'⟩

/-- Inversion of a successful `getSchemas` run. -/
theorem getSchemas_ok_inv (doc : Doc) (f : Nat) (refs : List String)
    (store : List (String × Option Schema))
    (h : getSchemas doc f refs = Except.ok store) :
    ∃ kfo, keysFromObjects doc f (dedup (refs.map getSchemaKey)) = Except.ok kfo ∧
      store = (dedup (dedup (refs.map getSchemaKey) ++ kfo)).map
        (fun k => (k, schemaLookup doc k)) := by
  simp only [getSchemas] at h
  cases hk : keysFromObjects doc f (dedup (refs.map getSchemaKey)) with
  | error e => rw [hk] at h; exact absurd h (by simp)
  | ok kfo =>
    rw [hk] at h
    simp only [Except.ok.injEq] at h
    exact ⟨kfo, rfl, h.symm⟩

/-! ## Worklist-closure lemmas -/

theorem closureGo_sound (doc : Doc) (R : String → Prop)
    (hclosed : ∀ a, R a → ∀ y ∈ stepNames doc a, R y) :
    ∀ visited wl, (∀ v ∈ visited, R v) → (∀ k ∈ wl, R k) →
      ∀ k ∈ closureGo doc visited wl, R k := by
  intro visited wl
  induction visited, wl using closureGo.induct doc with
  | case1 visited =>
    intro hv _ k hk
    rw [closureGo] at hk
    exact hv k hk
  | case2 visited x rest hcont ih =>
    intro hv hw k hk
    rw [closureGo, if_pos hcont] at hk
    exact ih hv (fun k' hk' => hw k' (List.mem_cons_of_mem _ hk')) k hk
  | case3 visited x rest hcont ih =>
    intro hv hw k hk
    rw [closureGo, if_neg hcont] at hk
    have hRx : R x := hw x (List.mem_cons_self _ _)
    refine ih ?_ ?_ k hk
    · intro v hv'
      rcases List.mem_append.mp hv' with hm | hm
      · exact hv v hm
      · rw [List.mem_singleton.mp hm]
        exact hRx
    · intro k' hk'
      rcases List.mem_append.mp hk' with hm | hm
      · exact hw k' (List.mem_cons_of_mem _ hm)
      · exact hclosed x hRx k' hm

theorem closureGo_complete (doc : Doc) :
    ∀ visited wl,
      (∀ v ∈ visited, ∀ y ∈ stepNames doc v, y ∈ visited ∨ y ∈ wl) →
      (∀ v ∈ visited, v ∈ closureGo doc visited wl) ∧
      (∀ k ∈ wl, k ∈ closureGo doc visited wl) ∧
      (∀ v ∈ closureGo doc visited wl, ∀ y ∈ stepNames doc v,
        y ∈ closureGo doc visited wl) := by
  intro visited wl
  induction visited, wl using closureGo.induct doc with
  | case1 visited =>
    intro hinv
    rw [closureGo]
    refine ⟨fun v hv => hv, fun k hk => by simp at hk, fun v hv y hy => ?_⟩
    rcases hinv v hv y hy with h | h
    · exact h
    · simp at h
  | case2 visited x rest hcont ih =>
    intro hinv
    have hxv : x ∈ visited := (contains_iff_mem _ _).mp hcont
    have hinv' : ∀ v ∈ visited, ∀ y ∈ stepNames doc v,
        y ∈ visited ∨ y ∈ rest := by
      intro v hv y hy
      rcases hinv v hv y hy with h | h
      · exact Or.inl h
      · rcases List.mem_cons.mp h with rfl | hr
        · exact Or.inl hxv
        · exact Or.inr hr
    obtain ⟨h1, h2, h3⟩ := ih hinv'
    rw [closureGo, if_pos hcont]
    refine ⟨h1, fun k hk => ?_, h3⟩
    rcases List.mem_cons.mp hk with rfl | hr
    · exact h1 k hxv
    · exact h2 k hr
  | case3 visited x rest hcont ih =>
    intro hinv
    have hinv' : ∀ v ∈ visited ++ [x], ∀ y ∈ stepNames doc v,
        y ∈ visited ++ [x] ∨ y ∈ rest ++ stepNames doc x := by
      intro v hv y hy
      rcases List.mem_append.mp hv with hm | hm
      · rcases hinv v hm y hy with h | h
        · exact Or.inl (List.mem_append.mpr (Or.inl h))
        · rcases List.mem_cons.mp h with rfl | hr
          · exact Or.inl (List.mem_append.mpr
              (Or.inr (List.mem_singleton.mpr rfl)))
          · exact Or.inr (List.mem_append.mpr (Or.inl hr))
      · rw [List.mem_singleton.mp hm] at hy
        exact Or.inr (List.mem_append.mpr (Or.inr hy))
    obtain ⟨h1, h2, h3⟩ := ih hinv'
    rw [closureGo, if_neg hcont]
    refine ⟨fun v hv => h1 v (List.mem_append.mpr (Or.inl hv)),
      fun k hk => ?_, h3⟩
    rcases List.mem_cons.mp hk with rfl | hr
    · exact h1 k (List.mem_append.mpr (Or.inr (List.mem_singleton.mpr rfl)))
    · exact h2 k (List.mem_append.mpr (Or.inl hr))

/-- The spec-side closure contains exactly the names reachable from the
keys of the direct references. -/
theorem mem_specClosure (doc : Doc) (refs : List String) (k : String) :
    k ∈ specClosure doc refs ↔
      ∃ z ∈ refs.map getSchemaKey, Reach doc z k := by
  constructor
  · intro hk
    refine closureGo_sound doc
      (fun n => ∃ z ∈ refs.map getSchemaKey, Reach doc z n)
      ?_ [] (refs.map getSchemaKey) (by simp) ?_ k hk
    · rintro a ⟨z, hz, hreach⟩ y hy
      exact ⟨z, hz, Reach.tail hreach hy⟩
    · intro k' hk'
      exact ⟨k', hk', Reach.refl _⟩
  · rintro ⟨z, hz, hreach⟩
    obtain ⟨_, h2, h3⟩ := closureGo_complete doc [] (refs.map getSchemaKey)
      (by simp)
    induction hreach with
    | refl => exact h2 _ hz
    | tail _ hstep ih => exact h3 _ ih _ hstep

/-- The name set of the source's two-pass assembly is exactly the
reachable set. -/
theorem getSchemas_names (doc : Doc) (f : Nat) (refs : List String)
    (kfo : List String)
    (hk : keysFromObjects doc f (dedup (refs.map getSchemaKey)) = Except.ok kfo)
    (k : String) :
    k ∈ dedup (dedup (refs.map getSchemaKey) ++ kfo) ↔
      ∃ z ∈ refs.map getSchemaKey, Reach doc z k := by
  rw [mem_dedup, List.mem_append, mem_dedup]
  constructor
  · rintro (hm | hm)
    · exact ⟨k, hm, Reach.refl _⟩
    · rcases keysFromObjects_sound doc f _ kfo hk k hm with
        ⟨z, hz, ps, out, hlk, hw, r, hr, hkey⟩
      rcases walkRefs_sound doc f _ out hw r hr with ⟨x, hx, hreach⟩
      refine ⟨z, (mem_dedup _ _).mp hz, ?_⟩
      rw [← hkey]
      refine Reach.trans (Reach.single ?_) hreach
      rw [stepNames, hlk]
      exact List.mem_map_of_mem _ hx
  · rintro ⟨z, hz, hreach⟩
    rcases Reach.head_cases hreach with rfl | ⟨c, hc, hcr⟩
    · exact Or.inl hz
    · right
      have hobj : ∃ ps, schemaLookup doc z = some (Schema.obj ps) := by
        by_contra hno
        push_neg at hno
        have : stepNames doc z = [] := by
          unfold stepNames
          cases hlk : schemaLookup doc z with
          | none => rfl
          | some s =>
            cases s with
            | obj ps => exact absurd hlk (hno ps)
            | ref r => rfl
            | coll items => rfl
            | allOf rs => rfl
            | prim => rfl
        rw [this] at hc
        simp at hc
      obtain ⟨ps, hps⟩ := hobj
      rcases keysFromObjects_forward doc f _ kfo hk z
        ((mem_dedup _ _).mpr hz) ps hps with ⟨out, hw, hsub⟩
      rw [stepNames, hps] at hc
      rcases List.mem_map.mp hc with ⟨x, hx, hxkey⟩
      rcases walkRefs_complete doc f _ out hw x hx k
        (by rw [hxkey]; exact hcr) with ⟨q, hq, hqkey⟩
      rw [← hqkey]
      exact hsub q hq

/-! ## Claim theorems -/

/-- C4. For every document admitting a rank function that strictly
decreases along property-scan steps (the acyclicity certificate: on a
finite schema graph such a function exists iff the reference graph has
no cycle), the source's two-pass closure assembly `getSchemas` — the
deduped direct keys, plus one flat pass of the recursive object
property-scan over them — succeeds for some budget and returns exactly
the same schema-name-to-definition mapping as the spec's single-pass
full transitive closure with a visited-set cycle guard
(`specGetSchemas`). -/
theorem c4_two_pass_eq_single_pass (doc : Doc) (refs : List String)
    (rank : String → Nat)
    (hrank : ∀ a b, b ∈ stepNames doc a → rank b < rank a) :
    ∃ f store, getSchemas doc f refs = Except.ok store ∧
      ∀ k, storeLookup store k = storeLookup (specGetSchemas doc refs) k := by
  obtain ⟨f, kfo, hkfo⟩ :=
    keysFromObjects_enough doc rank hrank (dedup (refs.map getSchemaKey))
  refine ⟨f, (dedup (dedup (refs.map getSchemaKey) ++ kfo)).map
    (fun k => (k, schemaLookup doc k)), ?_, ?_⟩
  · simp only [getSchemas, hkfo]
  intro k
  rw [storeLookup_map]
  simp only [specGetSchemas, specClosure]
  rw [storeLookup_map]
  by_cases hm : k ∈ dedup (dedup (refs.map getSchemaKey) ++ kfo)
  · rw [if_pos hm, if_pos]
    exact (mem_specClosure doc refs k).mpr
      ((getSchemas_names doc f refs kfo hkfo k).mp hm)
  · rw [if_neg hm, if_neg]
    intro hc
    exact hm ((getSchemas_names doc f refs kfo hkfo k).mpr
      ((mem_specClosure doc refs k).mp hc))

/-- An acyclic two-schema document used to instantiate C4: `A` is an
object with a property referencing `B`, `B` is primitive. -/
def wDocC4 : Doc :=
  ⟨some "3.0.1", none,
   [("A", Schema.obj [("b", Schema.ref "#/components/schemas/B")]),
    ("B", Schema.prim)]⟩

/-- Witness for C4 at a concrete acyclic document. -/
theorem c4_two_pass_eq_single_pass_witness :
    ∃ f store,
      getSchemas wDocC4 f ["#/components/schemas/A"] = Except.ok store ∧
      ∀ k, storeLookup store k =
        storeLookup (specGetSchemas wDocC4 ["#/components/schemas/A"]) k := by
  apply c4_two_pass_eq_single_pass wDocC4 ["#/components/schemas/A"]
    (fun k => if k = "A" then 1 else 0)
  intro a b hb
  by_cases ha : a = "A"
  · rw [ha] at hb
    rw [show stepNames wDocC4 "A" = ["B"] from rfl] at hb
    rw [List.mem_singleton.mp hb, ha]
    decide
  · by_cases ha2 : a = "B"
    · rw [ha2] at hb
      rw [show stepNames wDocC4 "B" = [] from rfl] at hb
      simp at hb
    · rw [stepNames_eq_nil_of_not_mem wDocC4 a (by
        simp only [wDocC4, List.map_cons, List.map_nil]
        simp [ha, ha2])] at hb
      simp at hb

/-- The `$ref` pointer to schema `A`. -/
def wRefA : String := "#/components/schemas/A"

/-- The `$ref` pointer to schema `B`. -/
def wRefB : String := "#/components/schemas/B"

/-- The operation used by the cyclic-document claim: request body
`application/json` schema referencing `A`, with a `200` response. -/
def wOpC2 : Operation :=
  ⟨none, none,
   some ⟨[("application/json", ⟨some (Schema.ref wRefA)⟩)]⟩,
   [(200, ⟨none⟩)]⟩

/-- A document whose schema reference graph has a two-cycle: object `A`
has a property referencing `B`, and object `B` a property referencing
`A`. The endpoint `/x` resolves to an operation whose request body
references `A`. -/
def wDocC2 : Doc :=
  ⟨some "3.0.1",
   some [("/x", ⟨some wOpC2, none, none, none⟩)],
   [("A", Schema.obj [("b", Schema.ref wRefB)]),
    ("B", Schema.obj [("a", Schema.ref wRefA)])]⟩

/-- One step of the walk on a reference whose target is an object. -/
theorem walkRefs_cons_obj (doc : Doc) (f : Nat) (x : String)
    (ps : List (String × Schema)) (rest : List String)
    (hlk : schemaLookup doc (getSchemaKey x) = some (Schema.obj ps)) :
    walkRefs doc (f + 1) (x :: rest) =
      match walkRefs doc f (objPropRefs ps) with
      | Except.error e => Except.error e
      | Except.ok sub =>
        match walkRefs doc f rest with
        | Except.error e => Except.error e
        | Except.ok tail => Except.ok (x :: (sub ++ tail)) := by
  simp only [walkRefs, hlk]

/-- On the cyclic document the walk exhausts every step budget, from
either entry point of the cycle. -/
theorem walkRefs_cyc (f : Nat) :
    walkRefs wDocC2 f [wRefA] = Except.error RFail.fuel ∧
    walkRefs wDocC2 f [wRefB] = Except.error RFail.fuel := by
  induction f with
  | zero => exact ⟨rfl, rfl⟩
  | succ f ih =>
    constructor
    · rw [walkRefs_cons_obj wDocC2 f wRefA [("b", Schema.ref wRefB)] [] rfl]
      rw [show objPropRefs [("b", Schema.ref wRefB)] = [wRefB] from rfl, ih.2]
    · rw [walkRefs_cons_obj wDocC2 f wRefB [("a", Schema.ref wRefA)] [] rfl]
      rw [show objPropRefs [("a", Schema.ref wRefA)] = [wRefA] from rfl, ih.1]

/-- C2 (failing execution). On the cyclic document, the full
`getSchemasByEndpoints` pipeline rooted at the endpoint `/x` (which
reaches `A`) exhausts every step budget: the source's unguarded
depth-first expansion never returns, so no mapping containing `A` and
`B` is ever produced — the recursion is unbounded, contradicting the
claimed termination. -/
theorem c2_cycle_unbounded_recursion (f : Nat) :
    getSchemasByEndpoints wDocC2 f ["/x"] = Except.error RFail.fuel := by
  have hB := (walkRefs_cyc f).2
  have hkfo : keysFromObjects wDocC2 f ["A"] = Except.error RFail.fuel := by
    simp only [keysFromObjects,
      show schemaLookup wDocC2 "A" =
        some (Schema.obj [("b", Schema.ref wRefB)]) from rfl,
      getReferencesByObject]
    rw [show objPropRefs [("b", Schema.ref wRefB)] = [wRefB] from rfl, hB]
  have hgs : getSchemas wDocC2 f [wRefA] = Except.error RFail.fuel := by
    simp only [getSchemas]
    rw [show dedup ([wRefA].map getSchemaKey) = ["A"] from rfl, hkfo]
  simp only [getSchemasByEndpoints, getSchemasByEndpointsGo,
    show getOperationByEndpoint wDocC2 "/x" = some wOpC2 from rfl,
    show getReferencesByOperation wOpC2 = Except.ok [wRefA] from rfl]
  rw [show (["/x"] : List String).isEmpty = false from rfl]
  simp only [Bool.false_eq_true, if_false]
  rw [hgs]

/-- A document with no `openapi` version field. -/
def wDocNoVersion : Doc := ⟨none, none, []⟩

/-- C6. Construction succeeds iff the substring of the declared version
field before its first `.` equals `"3"`; in particular it fails (with
the version error, and no constructed instance) when the version field
is absent. Failure yields only the error value, so no partially
constructed instance is available for queries. -/
theorem c6_construction_version_gate (doc : Doc) :
    ((∃ d, construct doc = Except.ok d) ↔
      (∃ v, doc.openapi = some v ∧ first (splitOnChar '.' v) = "3")) ∧
    (doc.openapi = none →
      construct doc = Except.error "Only OpenApi version 3 supported yet.") := by
  constructor
  · constructor
    · rintro ⟨d, hd⟩
      unfold construct at hd
      by_cases hv : majorVersion doc = some (toString SUPPORTED_VERSION)
      · cases ho : doc.openapi with
        | none =>
          unfold majorVersion at hv
          rw [ho] at hv
          exact absurd hv (by simp)
        | some v =>
          refine ⟨v, rfl, ?_⟩
          unfold majorVersion at hv
          rw [ho] at hv
          simp only [Option.some.injEq] at hv
          rw [hv]
          rfl
      · rw [if_neg hv] at hd
        exact absurd hd (by simp)
    · rintro ⟨v, ho, hfirst⟩
      refine ⟨doc, ?_⟩
      unfold construct
      rw [if_pos]
      unfold majorVersion
      rw [ho]
      show some (first (splitOnChar '.' v)) = some (toString SUPPORTED_VERSION)
      rw [hfirst]
      rfl
  · intro ho
    unfold construct
    rw [if_neg]
    unfold majorVersion
    rw [ho]
    simp

/-- Witness for C6: a `3.0.1` document constructs, and a document with
no version field fails with the version error. -/
theorem c6_construction_version_gate_witness :
    (∃ v, wDocC4.openapi = some v ∧ first (splitOnChar '.' v) = "3") ∧
    construct wDocNoVersion =
      Except.error "Only OpenApi version 3 supported yet." := by
  exact ⟨(c6_construction_version_gate wDocC4).1.mp ⟨wDocC4, rfl⟩,
    (c6_construction_version_gate wDocNoVersion).2 rfl⟩

/-- A path item with no operations. -/
def emptyItem : PathItem := ⟨none, none, none, none⟩

/-- The document of the `listEndpoints` witness: paths registered in the
order `/b`, `/a`. -/
def wDocC9 : Doc :=
  ⟨some "3.0.1", some [("/b", emptyItem), ("/a", emptyItem)], []⟩

/-- C9. `getEndpoints` returns the empty sequence when `paths` is
absent, and otherwise a lexicographically sorted permutation of the path
keys — every key exactly once when the keys are distinct (as JavaScript
object keys always are). -/
theorem c9_endpoints_sorted (doc : Doc) :
    (doc.paths = none → getEndpoints doc = []) ∧
    (∀ ps, doc.paths = some ps →
      (getEndpoints doc).Perm (ps.map Prod.fst) ∧
      List.Sorted (· ≤ ·) (getEndpoints doc) ∧
      ((ps.map Prod.fst).Nodup → (getEndpoints doc).Nodup)) := by
  constructor
  · intro h
    unfold getEndpoints
    rw [h]
  · intro ps h
    unfold getEndpoints
    rw [h]
    refine ⟨List.perm_insertionSort _ _, List.sorted_insertionSort _ _,
      fun hnd => ?_⟩
    exact ((List.perm_insertionSort (· ≤ ·) (ps.map Prod.fst)).nodup_iff).mpr hnd

/-- Witness for C9: on paths `{"/b", "/a"}` the result is a sorted
permutation of the keys (indeed `["/a","/b"]`), and a document without
paths yields `[]`. -/
theorem c9_endpoints_sorted_witness :
    (getEndpoints wDocC9).Perm ["/b", "/a"] ∧
    List.Sorted (· ≤ ·) (getEndpoints wDocC9) ∧
    getEndpoints wDocNoVersion = [] := by
  have h := (c9_endpoints_sorted wDocC9).2 [("/b", emptyItem), ("/a", emptyItem)] rfl
  exact ⟨h.1, h.2.1, (c9_endpoints_sorted wDocNoVersion).1 rfl⟩

theorem find?_first_true {α : Type} (p : α → Bool) :
    ∀ (pre : List α) (a : α) (rest : List α),
      (∀ kv ∈ pre, p kv = false) → p a = true →
      (pre ++ a :: rest).find? p = some a := by
  intro pre
  induction pre with
  | nil =>
    intro a rest _ hp
    simp [List.find?, hp]
  | cons y pre ih =>
    intro a rest hpre hp
    have hy : p y = false := hpre y (List.mem_cons_self _ _)
    simp only [List.cons_append, List.find?, hy]
    exact ih a rest (fun kv hkv => hpre kv (List.mem_cons_of_mem _ hkv)) hp

/-- C3. Operation lookup: if no path key has the endpoint argument as a
suffix, the lookup returns `none`; otherwise the first such key (in the
mapping's iteration order) wins, and among its path item's methods the
first present of GET, POST, PUT, DELETE is returned — `none` when the
item has none of the four. -/
theorem c3_operation_lookup (doc : Doc) (ps : List (String × PathItem))
    (e : String) (hps : doc.paths = some ps) :
    ((∀ kv ∈ ps, strEndsWith kv.1 e = false) →
      getOperationByEndpoint doc e = none) ∧
    (∀ pre k item rest, ps = pre ++ (k, item) :: rest →
      (∀ kv ∈ pre, strEndsWith kv.1 e = false) → strEndsWith k e = true →
      getOperationByEndpoint doc e =
        match item.get with
        | some g => some g
        | none =>
          match item.post with
          | some p => some p
          | none =>
            match item.put with
            | some pu => some pu
            | none => item.delete) := by
  constructor
  · intro hall
    unfold getOperationByEndpoint
    rw [hps]
    show (match List.find? (fun kv => strEndsWith kv.1 e) ps with
      | none => none
      | some kv => methodPriority kv.2) = none
    rw [List.find?_eq_none.mpr]
    intro kv hkv hbeq
    rw [hall kv hkv] at hbeq
    exact Bool.noConfusion hbeq
  · intro pre k item rest hsplit hpre hk
    unfold getOperationByEndpoint
    rw [hps, hsplit]
    show (match List.find? (fun kv => strEndsWith kv.1 e)
        (pre ++ (k, item) :: rest) with
      | none => none
      | some kv => methodPriority kv.2) = _
    rw [find?_first_true _ pre (k, item) rest hpre hk]
    rfl

/-- The sole operation of the C3 witness document. -/
def wOpC3 : Operation := ⟨none, none, none, [(200, ⟨none⟩)]⟩

/-- The C3 witness document: a non-matching path first, then
`/api/users` whose item has only a POST operation. -/
def wDocC3 : Doc :=
  ⟨some "3.0.1",
   some [("/nope", emptyItem), ("/api/users", ⟨none, some wOpC3, none, none⟩)],
   []⟩

/-- Witness for C3: `/users` suffix-matches the registered key
`/api/users` (skipping the earlier non-matching key) and selects its
POST operation since GET is absent; an endpoint matching no key
resolves to `none`. -/
theorem c3_operation_lookup_witness :
    getOperationByEndpoint wDocC3 "/users" =
      (match (none : Option Operation) with
        | some g => some g
        | none =>
          match some wOpC3 with
          | some p => some p
          | none =>
            match (none : Option Operation) with
            | some pu => some pu
            | none => (none : Option Operation)) ∧
    getOperationByEndpoint wDocC3 "/zzz" = none := by
  constructor
  · exact (c3_operation_lookup wDocC3
      [("/nope", emptyItem), ("/api/users", ⟨none, some wOpC3, none, none⟩)]
      "/users" rfl).2 [("/nope", emptyItem)] "/api/users"
      ⟨none, some wOpC3, none, none⟩ [] rfl
      (by
        intro kv hkv
        rw [List.mem_singleton.mp hkv]
        decide)
      (by decide)
  · exact (c3_operation_lookup wDocC3
      [("/nope", emptyItem), ("/api/users", ⟨none, some wOpC3, none, none⟩)]
      "/zzz" rfl).1
      (by
        intro kv hkv
        rcases List.mem_cons.mp hkv with rfl | hkv'
        · decide
        · rw [List.mem_singleton.mp hkv']
          decide)

/-- Skipping one unresolvable endpoint leaves the schema reduce
unchanged, from any starting store. -/
theorem getSchemasByEndpointsGo_skip (doc : Doc) (f : Nat) (e : String)
    (hnone : getOperationByEndpoint doc e = none) :
    ∀ pre post store,
      getSchemasByEndpointsGo doc f (pre ++ e :: post) store =
      getSchemasByEndpointsGo doc f (pre ++ post) store := by
  intro pre
  induction pre with
  | nil =>
    intro post store
    simp only [List.nil_append, getSchemasByEndpointsGo, hnone]
  | cons p pre ih =>
    intro post store
    simp only [List.cons_append, getSchemasByEndpointsGo]
    cases hp : getOperationByEndpoint doc p with
    | none => exact ih post store
    | some op =>
      dsimp only
      cases hro : getReferencesByOperation op with
      | error err => rfl
      | ok refs =>
        dsimp only
        cases hgs : getSchemas doc f refs with
        | error err => rfl
        | ok m => exact ih post (mergeStore store m)

/-- C7. An endpoint that resolves to no operation is silently omitted
from the results of both `getSchemasByEndpoints` and
`getOperationsByEndpoints`: no error is raised and both results equal
what the remaining endpoints alone produce. -/
theorem c7_unresolvable_endpoint_skipped (doc : Doc) (f : Nat) (e : String)
    (pre post : List String)
    (hnone : getOperationByEndpoint doc e = none) :
    getOperationsByEndpoints doc (pre ++ e :: post) =
      getOperationsByEndpoints doc (pre ++ post) ∧
    getSchemasByEndpoints doc f (pre ++ e :: post) =
      getSchemasByEndpoints doc f (pre ++ post) := by
  constructor
  · unfold getOperationsByEndpoints
    have hfold : ∀ (acc : List (String × Operation)),
        (pre ++ e :: post).foldl
          (fun store e' =>
            match getOperationByEndpoint doc e' with
            | none => store
            | some op => store ++ [(e', op)]) acc =
        (pre ++ post).foldl
          (fun store e' =>
            match getOperationByEndpoint doc e' with
            | none => store
            | some op => store ++ [(e', op)]) acc := by
      intro acc
      rw [List.foldl_append, List.foldl_append]
      simp only [List.foldl_cons, hnone]
    rw [if_neg (by simp)]
    by_cases hpp : (pre ++ post).isEmpty = true
    · rw [if_pos hpp, hfold]
      rw [List.isEmpty_iff.mp hpp]
      rfl
    · rw [if_neg hpp, hfold]
  · unfold getSchemasByEndpoints
    rw [if_neg (by simp)]
    by_cases hpp : (pre ++ post).isEmpty = true
    · rw [if_pos hpp, getSchemasByEndpointsGo_skip doc f e hnone]
      rw [List.isEmpty_iff.mp hpp]
      rfl
    · rw [if_neg hpp, getSchemasByEndpointsGo_skip doc f e hnone]

/-- Witness for C7 at the C2 document: the endpoint `/absent` matches no
path key, so adding it to the input set changes neither query's
result. -/
theorem c7_unresolvable_endpoint_skipped_witness :
    getOperationsByEndpoints wDocC2 (["/x"] ++ "/absent" :: []) =
      getOperationsByEndpoints wDocC2 (["/x"] ++ []) ∧
    getSchemasByEndpoints wDocC2 3 (["/x"] ++ "/absent" :: []) =
      getSchemasByEndpoints wDocC2 3 (["/x"] ++ []) :=
  c7_unresolvable_endpoint_skipped wDocC2 3 "/absent" ["/x"] [] rfl

theorem getSchemas_error_fuel (doc : Doc) (f : Nat) (refs : List String)
    (e : RFail) (h : getSchemas doc f refs = Except.error e) :
    e = RFail.fuel := by
  simp only [getSchemas] at h
  cases hk : keysFromObjects doc f (dedup (refs.map getSchemaKey)) with
  | error e' =>
    rw [hk] at h
    simp only [Except.error.injEq] at h
    rw [← h]
    exact keysFromObjects_error_fuel doc f _ e' hk
  | ok kfo => rw [hk] at h; exact absurd h (by simp)

theorem getReferencesByOperation_missing200 (op : Operation)
    (hfind : op.responses.find? (fun kv => kv.1 == 200) = none) :
    getReferencesByOperation op = Except.error RFail.noResp200 := by
  unfold getReferencesByOperation
  rw [hfind]

theorem getReferencesByOperation_with200 (op : Operation) (kv : Nat × Response3)
    (hfind : op.responses.find? (fun kv => kv.1 == 200) = some kv) :
    ∃ refs, getReferencesByOperation op = Except.ok refs := by
  unfold getReferencesByOperation
  rw [hfind]
  exact ⟨_, rfl⟩

/-- C8. If some endpoint of the input set resolves to an operation whose
responses have no `200` entry, `getSchemasByEndpoints` fails for that
call — the operation is not skipped and no partial mapping is returned.
Conversely, when every resolved operation has a `200` entry, the
missing-200 failure is unreachable. -/
theorem c8_missing_200_fails (doc : Doc) (f : Nat) (endpoints : List String) :
    (∀ e op, e ∈ endpoints → getOperationByEndpoint doc e = some op →
      op.responses.find? (fun kv => kv.1 == 200) = none →
      (getSchemasByEndpoints doc f endpoints).isOk = false) ∧
    ((∀ e op, e ∈ endpoints → getOperationByEndpoint doc e = some op →
        (op.responses.find? (fun kv => kv.1 == 200)).isSome = true) →
      getSchemasByEndpoints doc f endpoints ≠ Except.error RFail.noResp200) := by
  have hgo1 : ∀ (l : List String) (store : List (String × Option Schema))
      (e : String) (op : Operation), e ∈ l →
      getOperationByEndpoint doc e = some op →
      op.responses.find? (fun kv => kv.1 == 200) = none →
      (getSchemasByEndpointsGo doc f l store).isOk = false := by
    intro l
    induction l with
    | nil =>
      intro store e op he
      simp at he
    | cons y rest ih =>
      intro store e op he hop hfind
      simp only [getSchemasByEndpointsGo]
      cases hy : getOperationByEndpoint doc y with
      | none =>
        rcases List.mem_cons.mp he with rfl | hr
        · rw [hop] at hy
          exact absurd hy (by simp)
        · exact ih store e op hr hop hfind
      | some op' =>
        dsimp only
        cases hro : getReferencesByOperation op' with
        | error err => rfl
        | ok refs =>
          dsimp only
          cases hgs : getSchemas doc f refs with
          | error err => rfl
          | ok m =>
            rcases List.mem_cons.mp he with rfl | hr
            · rw [hop] at hy
              have hop' : op' = op := by
                injection hy.symm
              rw [hop'] at hro
              rw [getReferencesByOperation_missing200 op hfind] at hro
              exact absurd hro (by simp)
            · exact ih (mergeStore store m) e op hr hop hfind
  have hgo2 : ∀ (l : List String) (store : List (String × Option Schema)),
      (∀ e op, e ∈ l → getOperationByEndpoint doc e = some op →
        (op.responses.find? (fun kv => kv.1 == 200)).isSome = true) →
      getSchemasByEndpointsGo doc f l store ≠
        Except.error RFail.noResp200 := by
    intro l
    induction l with
    | nil =>
      intro store _
      simp [getSchemasByEndpointsGo]
    | cons y rest ih =>
      intro store hpre
      simp only [getSchemasByEndpointsGo]
      cases hy : getOperationByEndpoint doc y with
      | none =>
        exact ih store
          (fun e op he hop => hpre e op (List.mem_cons_of_mem _ he) hop)
      | some op' =>
        dsimp only
        have hsome := hpre y op' (List.mem_cons_self _ _) hy
        rcases Option.isSome_iff_exists.mp hsome with ⟨kv, hkv⟩
        rcases getReferencesByOperation_with200 op' kv hkv with ⟨refs, hro⟩
        rw [hro]
        dsimp only
        cases hgs : getSchemas doc f refs with
        | error err =>
          have := getSchemas_error_fuel doc f refs err hgs
          rw [this]
          intro hc
          injection hc with hc'
          exact RFail.noConfusion hc'
        | ok m =>
          exact ih (mergeStore store m)
            (fun e op he hop => hpre e op (List.mem_cons_of_mem _ he) hop)
  constructor
  · intro e op he hop hfind
    unfold getSchemasByEndpoints
    rw [if_neg (by
      intro hc
      rw [List.isEmpty_iff.mp hc] at he
      simp at he)]
    exact hgo1 endpoints [] e op he hop hfind
  · intro hpre
    unfold getSchemasByEndpoints
    by_cases hemp : endpoints.isEmpty = true
    · rw [if_pos hemp]
      simp
    · rw [if_neg hemp]
      exact hgo2 endpoints [] hpre

/-- The C8 operation lacking a `200` response. -/
def wOpC8a : Operation := ⟨none, none, none, [(404, ⟨none⟩)]⟩

/-- The C8 document whose only operation lacks a `200` response. -/
def wDocC8a : Doc :=
  ⟨some "3.0.1", some [("/x", ⟨some wOpC8a, none, none, none⟩)], []⟩

/-- The C8 operation with a `200` response. -/
def wOpC8b : Operation := ⟨none, none, none, [(200, ⟨none⟩)]⟩

/-- The C8 document whose only operation has a `200` response. -/
def wDocC8b : Doc :=
  ⟨some "3.0.1", some [("/x", ⟨some wOpC8b, none, none, none⟩)], []⟩

/-- Witness for C8: the document whose operation lacks `200` makes the
query fail, and on the document where every resolved operation has a
`200` the missing-200 failure cannot occur. -/
theorem c8_missing_200_fails_witness :
    (getSchemasByEndpoints wDocC8a 3 ["/x"]).isOk = false ∧
    getSchemasByEndpoints wDocC8b 3 ["/x"] ≠
      Except.error RFail.noResp200 := by
  constructor
  · exact (c8_missing_200_fails wDocC8a 3 ["/x"]).1 "/x" wOpC8a
      (List.mem_singleton.mpr rfl) rfl rfl
  · refine (c8_missing_200_fails wDocC8b 3 ["/x"]).2 ?_
    intro e op he hop
    rw [List.mem_singleton.mp he] at hop
    rw [show getOperationByEndpoint wDocC8b "/x" = some wOpC8b from rfl] at hop
    have : wOpC8b = op := by injection hop
    rw [← this]
    rfl

theorem mem_objPropRefs (props : List (String × Schema)) (pn : String)
    (s : Schema) (hs : (pn, s) ∈ props) (r : String) (hr : r ∈ propRefs s) :
    r ∈ objPropRefs props := by
  unfold objPropRefs
  exact List.mem_flatMap.mpr ⟨s, List.mem_map.mpr ⟨(pn, s), hs, rfl⟩, hr⟩

/-- C5. During object-property expansion, a property that is a
collection whose `items` is a reference contributes that reference (and
hence its schema name) to the collected set, and a property that is an
`allOf` composition contributes every one of its element references. -/
theorem c5_collection_and_allOf_contribute (doc : Doc) (f : Nat)
    (props : List (String × Schema)) (out : List String)
    (h : getReferencesByObject doc f props = Except.ok out) :
    (∀ pn r, (pn, Schema.coll (Schema.ref r)) ∈ props →
      r ∈ out ∧ getSchemaKey r ∈ out.map getSchemaKey) ∧
    (∀ pn rs, (pn, Schema.allOf rs) ∈ props →
      ∀ r ∈ rs, r ∈ out ∧ getSchemaKey r ∈ out.map getSchemaKey) := by
  unfold getReferencesByObject at h
  constructor
  · intro pn r hmem
    have hr : r ∈ objPropRefs props :=
      mem_objPropRefs props pn _ hmem r (by simp [propRefs])
    have hout := walkRefs_mem doc f _ out h r hr
    exact ⟨hout, List.mem_map_of_mem _ hout⟩
  · intro pn rs hmem r hrs
    have hr : r ∈ objPropRefs props :=
      mem_objPropRefs props pn _ hmem r (by simpa [propRefs] using hrs)
    have hout := walkRefs_mem doc f _ out h r hr
    exact ⟨hout, List.mem_map_of_mem _ hout⟩

/-- The C5 witness property list: a collection property with reference
items and an `allOf` property with two reference elements. -/
def wPropsC5 : List (String × Schema) :=
  [("list", Schema.coll (Schema.ref "#/components/schemas/Item")),
   ("both", Schema.allOf
     ["#/components/schemas/X", "#/components/schemas/Y"])]

/-- A minimal document for the C5 witness. -/
def wDocC5 : Doc := ⟨some "3.0.1", none, []⟩

/-- The expansion output of the C5 witness property list. -/
def wOutC5 : List String :=
  ["#/components/schemas/Item", "#/components/schemas/X",
   "#/components/schemas/Y"]

/-- Witness for C5: the collection property contributes `Item`, the
`allOf` property contributes both `X` and `Y`. -/
theorem c5_collection_and_allOf_contribute_witness :
    ("#/components/schemas/Item" ∈ wOutC5 ∧
      getSchemaKey "#/components/schemas/Item" ∈ wOutC5.map getSchemaKey) ∧
    ("#/components/schemas/X" ∈ wOutC5 ∧
      getSchemaKey "#/components/schemas/X" ∈ wOutC5.map getSchemaKey) ∧
    ("#/components/schemas/Y" ∈ wOutC5 ∧
      getSchemaKey "#/components/schemas/Y" ∈ wOutC5.map getSchemaKey) := by
  have h := c5_collection_and_allOf_contribute wDocC5 5 wPropsC5 wOutC5 rfl
  refine ⟨h.1 "list" _ (List.mem_cons_self _ _), ?_, ?_⟩
  · exact h.2 "both" _ (List.mem_cons_of_mem _ (List.mem_cons_self _ _)) _
      (List.mem_cons_self _ _)
  · exact h.2 "both" _ (List.mem_cons_of_mem _ (List.mem_cons_self _ _)) _
      (List.mem_cons_of_mem _ (List.mem_cons_self _ _))

/-- C10 (implicit). A discovered reference naming a schema absent from
the components table does not make `getSchemas` fail: the returned
mapping contains that schema name as a key mapped to `none` (the
`undefined` value), every stored value is just the components-table
lookup of its key, and the walk does not recurse into a missing
name — it collects the reference and moves on. -/
theorem c10_missing_schema_undefined_entry (doc : Doc) (f : Nat)
    (refs : List String) (store : List (String × Option Schema)) (k : String)
    (hok : getSchemas doc f refs = Except.ok store)
    (hk : schemaLookup doc k = none)
    (hmem : k ∈ refs.map getSchemaKey) :
    (k, none) ∈ store ∧ storeLookup store k = some none ∧
    (∀ kv ∈ store, kv.2 = schemaLookup doc kv.1) ∧
    (∀ g x rest, getSchemaKey x = k →
      walkRefs doc (g + 1) (x :: rest) =
        (walkRefs doc g rest).map (List.cons x)) := by
  obtain ⟨kfo, hkfo, hstore⟩ := getSchemas_ok_inv doc f refs store hok
  have hnames : k ∈ dedup (dedup (refs.map getSchemaKey) ++ kfo) :=
    (mem_dedup _ _).mpr
      (List.mem_append.mpr (Or.inl ((mem_dedup _ _).mpr hmem)))
  refine ⟨?_, ?_, ?_, ?_⟩
  · rw [hstore]
    refine List.mem_map.mpr ⟨k, hnames, ?_⟩
    show (k, schemaLookup doc k) = (k, none)
    rw [hk]
  · rw [hstore, storeLookup_map, if_pos hnames, hk]
  · rw [hstore]
    intro kv hkv
    rcases List.mem_map.mp hkv with ⟨n, _, hn⟩
    rw [← hn]
  · intro g x rest hxk
    have hlk : schemaLookup doc (getSchemaKey x) = none := by
      rw [hxk]
      exact hk
    cases ht : walkRefs doc g rest with
    | error e => simp only [walkRefs, hlk, ht, Except.map]
    | ok tail => simp only [walkRefs, hlk, ht, Except.map]

/-- The C10 witness document: object `A` has a property referencing
`Missing`, which is absent from the components table. -/
def wDocC10 : Doc :=
  ⟨some "3.0.1", none,
   [("A", Schema.obj [("m", Schema.ref "#/components/schemas/Missing")])]⟩

/-- The store returned by `getSchemas` on the C10 witness input. -/
def wStoreC10 : List (String × Option Schema) :=
  [("A", some (Schema.obj [("m", Schema.ref "#/components/schemas/Missing")])),
   ("Missing", none)]

/-- Witness for C10: with a direct reference to `A` and one to the
absent name `Missing`, the call succeeds and `Missing` appears as a key
holding `none`. -/
theorem c10_missing_schema_undefined_entry_witness :
    ("Missing", none) ∈ wStoreC10 ∧
    storeLookup wStoreC10 "Missing" = some none ∧
    (∀ kv ∈ wStoreC10, kv.2 = schemaLookup wDocC10 kv.1) ∧
    (∀ g x rest, getSchemaKey x = "Missing" →
      walkRefs wDocC10 (g + 1) (x :: rest) =
        (walkRefs wDocC10 g rest).map (List.cons x)) :=
  c10_missing_schema_undefined_entry wDocC10 3
    ["#/components/schemas/A", "#/components/schemas/Missing"]
    wStoreC10 "Missing" rfl rfl
    (List.mem_cons_of_mem _ (List.mem_cons_self _ _))

theorem mem_getSchemaFromContent (refs : List String) (s : Option Schema)
    (x : String) (hx : x ∈ refs) : x ∈ getSchemaFromContent refs s := by
  unfold getSchemaFromContent
  split
  · exact List.mem_append.mpr (Or.inl hx)
  · exact List.mem_append.mpr (Or.inl hx)
  · exact hx

theorem getSchemaFromContent_some_ref (refs : List String) (r : String) :
    getSchemaFromContent refs (some (Schema.ref r)) = refs ++ [r] := rfl

theorem map_fst_store (names : List String) (g : String → Option Schema) :
    ((names.map (fun k => (k, g k))).map Prod.fst) = names := by
  induction names with
  | nil => rfl
  | cons n rest ih =>
    show n :: (rest.map (fun k => (k, g k))).map Prod.fst = n :: rest
    rw [ih]

/-- C1. If the endpoint resolves to an operation whose request body
`application/json` schema is a reference to a named schema (`uName`),
and that schema is an object with a property that is itself a reference
to another named schema (`aName`), then a successful
`getSchemasByEndpoints` on that endpoint returns a store whose keys
include both names, each mapped to its components-table definition. -/
theorem c1_request_body_transitive (doc : Doc) (e : String) (op : Operation)
    (uref uName : String) (ps : List (String × Schema)) (pn aref aName : String)
    (f : Nat) (store : List (String × Option Schema))
    (hop : getOperationByEndpoint doc e = some op)
    (hjson : op.requestBody.bind (fun rb => jsonOf rb.content) =
      some (Schema.ref uref))
    (huk : getSchemaKey uref = uName)
    (hU : schemaLookup doc uName = some (Schema.obj ps))
    (hprop : (pn, Schema.ref aref) ∈ ps)
    (hak : getSchemaKey aref = aName)
    (hok : getSchemasByEndpoints doc f [e] = Except.ok store) :
    (uName, schemaLookup doc uName) ∈ store ∧
    (aName, schemaLookup doc aName) ∈ store := by
  unfold getSchemasByEndpoints at hok
  rw [if_neg (by simp)] at hok
  simp only [getSchemasByEndpointsGo, hop] at hok
  cases hro : getReferencesByOperation op with
  | error err => rw [hro] at hok; exact absurd hok (by simp)
  | ok refs =>
    rw [hro] at hok
    dsimp only at hok
    cases hgs : getSchemas doc f refs with
    | error err => rw [hgs] at hok; exact absurd hok (by simp)
    | ok m =>
      rw [hgs] at hok
      dsimp only at hok
      simp only [Except.ok.injEq] at hok
      have huref : uref ∈ refs := by
        unfold getReferencesByOperation at hro
        cases hfind : op.responses.find? (fun kv => kv.1 == 200) with
        | none => rw [hfind] at hro; exact absurd hro (by simp)
        | some kv =>
          rw [hfind] at hro
          simp only [Except.ok.injEq] at hro
          rw [← hro]
          apply mem_getSchemaFromContent
          rw [hjson, getSchemaFromContent_some_ref]
          exact List.mem_append.mpr (Or.inr (List.mem_singleton.mpr rfl))
      obtain ⟨kfo, hkfo, hm⟩ := getSchemas_ok_inv doc f refs m hgs
      have hukeys : uName ∈ dedup (refs.map getSchemaKey) :=
        (mem_dedup _ _).mpr (huk ▸ List.mem_map_of_mem _ huref)
      obtain ⟨out, hw, hsub⟩ :=
        keysFromObjects_forward doc f _ kfo hkfo uName hukeys ps hU
      have haref : aref ∈ objPropRefs ps :=
        mem_objPropRefs ps pn _ hprop aref (by simp [propRefs])
      have haout := walkRefs_mem doc f _ out hw aref haref
      have hakfo : aName ∈ kfo := hak ▸ hsub aref haout
      have hnames_a : aName ∈ dedup (dedup (refs.map getSchemaKey) ++ kfo) :=
        (mem_dedup _ _).mpr (List.mem_append.mpr (Or.inr hakfo))
      have hnames_u : uName ∈ dedup (dedup (refs.map getSchemaKey) ++ kfo) :=
        (mem_dedup _ _).mpr (List.mem_append.mpr (Or.inl hukeys))
      have hnd : (m.map Prod.fst).Nodup := by
        rw [hm, map_fst_store]
        exact nodup_dedup _
      have hstore_eq : store = m := by
        rw [← hok, mergeStore_nil m hnd]
      rw [hstore_eq, hm]
      exact ⟨List.mem_map.mpr ⟨uName, hnames_u, rfl⟩,
        List.mem_map.mpr ⟨aName, hnames_a, rfl⟩⟩

/-- The C1 witness operation: request body `application/json` schema is
a reference to `User`. -/
def wOpC1 : Operation :=
  ⟨none, none,
   some ⟨[("application/json",
     ⟨some (Schema.ref "#/components/schemas/User")⟩)]⟩,
   [(200, ⟨none⟩)]⟩

/-- The C1 witness document: `User` is an object whose `address`
property references `Address`. -/
def wDocC1 : Doc :=
  ⟨some "3.0.1",
   some [("/u", ⟨some wOpC1, none, none, none⟩)],
   [("User", Schema.obj
      [("address", Schema.ref "#/components/schemas/Address")]),
    ("Address", Schema.prim)]⟩

/-- The store returned on the C1 witness input. -/
def wStoreC1 : List (String × Option Schema) :=
  [("User", some (Schema.obj
     [("address", Schema.ref "#/components/schemas/Address")])),
   ("Address", some Schema.prim)]

/-- Witness for C1: both `User` and `Address` are keys of the result,
each mapped to its components-table definition. -/
theorem c1_request_body_transitive_witness :
    ("User", schemaLookup wDocC1 "User") ∈ wStoreC1 ∧
    ("Address", schemaLookup wDocC1 "Address") ∈ wStoreC1 :=
  c1_request_body_transitive wDocC1 "/u" wOpC1
    "#/components/schemas/User" "User"
    [("address", Schema.ref "#/components/schemas/Address")] "address"
    "#/components/schemas/Address" "Address" 5 wStoreC1
    rfl rfl rfl rfl (List.mem_singleton.mpr rfl) rfl rfl

end OpenAPI
